import Mathlib

/-!
Verification development for the DCIM-Converter repository
(src/video_converter.py, version 2.2.0).

The Python source is shallowly embedded below.  Filesystem paths are
modelled as lists of path components (`List String`); a filesystem is the
list of paths of the files that currently exist.  External tools (ffprobe,
ffmpeg, shutil.copy2, os.remove) are modelled by oracle functions carried
in an environment record, stating only their success/failure and observable
effect.  Runs are modelled without cancellation or watchdog interference
(the single uncancelled run of the background thread).
-/

namespace DCIM

/-! ## String helpers (Python `str.lower` / `str.upper` / `str.split` /
`in` / slicing, on the ASCII data used here).  All are written by
structural recursion over the character list so that concrete instances
reduce inside the kernel. -/

def strLower (s : String) : String := String.mk (s.toList.map Char.toLower)

def strUpper (s : String) : String := String.mk (s.toList.map Char.toUpper)

/-- `name[:-n]` for `n ≤ len(name)`: all but the last `n` characters. -/
def strDropRight (s : String) (n : Nat) : String :=
  String.mk (s.toList.take (s.toList.length - n))

/-- Python `s.split(sep)` for a one-character separator. -/
def splitOnCharAux (sep : Char) : List Char → List Char → List (List Char)
  | [], acc => [acc.reverse]
  | c :: cs, acc =>
    if c = sep then acc.reverse :: splitOnCharAux sep cs []
    else splitOnCharAux sep cs (c :: acc)

def splitOnChar (s : String) (sep : Char) : List String :=
  (splitOnCharAux sep s.toList []).map String.mk

/-- Python `ch in s` for a one-character needle. -/
def containsChar (s : String) (c : Char) : Bool := s.toList.contains c

/-- Decimal interpretation of a digit string (used to read the CRF presets
as the numbers they denote). -/
def natOfDigits : List Char → Option Nat
  | [] => none
  | cs => go cs 0
where
  go : List Char → Nat → Option Nat
    | [], acc => some acc
    | c :: cs, acc =>
      if c.isDigit then go cs (acc * 10 + (c.toNat - 48)) else none

def strToNat? (s : String) : Option Nat := natOfDigits s.toList

/-! ## `pathlib` fragments used by the source

`suffixOfName` mirrors CPython `PurePath.suffix`: the substring of the
final component from its last dot, provided that dot is neither the first
nor the last character; `withSuffixName` mirrors `PurePath.with_suffix`
applied to a (valid, dot-initial) suffix argument.
-/

def suffixOfName (name : String) : String :=
  let cs := name.toList
  let r := cs.reverse.indexOf '.'
  if r < cs.length then
    let i := cs.length - 1 - r
    if 0 < i && i + 1 < cs.length then String.mk (cs.drop i) else ""
  else ""

def withSuffixName (name suffix : String) : String :=
  let old := suffixOfName name
  if old = "" then name ++ suffix else strDropRight name old.length ++ suffix

/-- `Path.name`: the final component of a path (empty for the empty path). -/
def nameOf (p : List String) : String := p.getLast?.getD ""

/-- `str(Path(...))` for a component list; separator choice is irrelevant
to every claim, the components being the authoritative representation. -/
def joinPath (p : List String) : String := String.intercalate "/" p

/-! ## Constants of the source (src/video_converter.py, lines 54-72) -/

def VIDEO_EXTENSIONS : List String :=
  [".mp4", ".avi", ".mov", ".mkv", ".wmv", ".flv", ".webm", ".m4v", ".3gp"]

def QUALITY_PRESETS : List (String × String) :=
  [("high", "18"), ("medium", "23"), ("low", "28")]

def LARGE_FILE_THRESHOLD : Nat := 50 * 1024 * 1024

def MAX_CACHE_SIZE : Nat := 200

/-! ## Metadata probe (`get_video_info`, lines 1192-1233)

The external `ffprobe` invocation is abstracted by a `ProbeOutcome`: either
the parsed JSON document (exit code 0, parsable output) or one of the
failure modes the `try`/`except` chain distinguishes.  `get_video_info` is
a total function of that outcome: no exception escapes it.
-/

structure ProbeStream where
  codec_type : Option String
  codec_name : Option String
deriving DecidableEq

structure FfprobeJson where
  format_name : Option String
  streams : List ProbeStream
deriving DecidableEq

inductive ProbeOutcome where
  /-- exit code 0 and JSON-parsable stdout -/
  | success (info : FfprobeJson)
  /-- `subprocess.CalledProcessError` raised by `check=True` -/
  | nonzeroExit
  /-- `subprocess.TimeoutExpired` -/
  | timeout
  /-- `json.JSONDecodeError` -/
  | badJson
  /-- any other exception -/
  | otherError
deriving DecidableEq

structure ProbeInfo where
  format : String
  compatible : Bool
  codec : String
deriving DecidableEq

/-- The `for stream in streams` loop: codec name of the first video stream. -/
def firstVideoCodec : List ProbeStream → String
  | [] => "Unknown"
  | s :: rest =>
    if s.codec_type = some "video" then s.codec_name.getD "Unknown"
    else firstVideoCodec rest

/-- `info.get('format', {}).get('format_name', 'Unknown').split(',')[0]` -/
def headSplitComma (s : String) : String :=
  match splitOnChar s ',' with
  | x :: _ => x
  | [] => s

def get_video_info (o : ProbeOutcome) : ProbeInfo :=
  match o with
  | .success info =>
    let format_name := strUpper (headSplitComma (info.format_name.getD "Unknown"))
    let codec := firstVideoCodec info.streams
    { format := format_name
      compatible := format_name = "MP4" && strLower codec = "h264"
      codec := codec }
  | .timeout => { format := "Timeout", compatible := false, codec := "Unknown" }
  | .nonzeroExit => { format := "Error", compatible := false, codec := "Unknown" }
  | .badJson => { format := "Error", compatible := false, codec := "Unknown" }
  | .otherError => { format := "Error", compatible := false, codec := "Unknown" }

/-! ## File scanner (`scan_videos_thread` / `process_video_file`, lines 1035-1190) -/

/-- One entry yielded by `source_path.rglob('*')`: its full path (component
list), size in bytes (`stat().st_size`), and whether it is a regular file. -/
structure FsEntry where
  path : List String
  size : Nat
  isFile : Bool
deriving DecidableEq

/-- A scanned record (the dict built at lines 1174-1183; the source stores
`size` as megabytes, `size / (1024*1024)`; the byte count is kept here and
the display fields `progress`/`tree_values` are omitted, no claim reading
them). -/
structure VideoRecord where
  path : List String
  sizeBytes : Nat
  format : String
  compatible : Bool
  status : String
  selected : Bool
deriving DecidableEq

/-- The `video_info` value of lines 1162-1168: probed for small files,
the unknown/incompatible pair for files at or above the threshold. -/
def scanInfo (probe : List String → ProbeInfo) (e : FsEntry) : String × Bool :=
  if e.size < LARGE_FILE_THRESHOLD then
    ((probe e.path).format, (probe e.path).compatible)
  else ("Unknown", false)

/-- `process_video_file` (lines 1144-1190).  `probe` abstracts
`get_video_info_cached`;  a raised `ValueError` from `relative_to`
(path not under the source root) is caught by the enclosing handler and
yields `None`.  The 2 GB guard compares `size_mb > 2000` where
`size_mb = size / 2^20` is computed in double precision; division by a
power of two being exact for these magnitudes, the comparison equals the
integer comparison used here. -/
def process_video_file (probe : List String → ProbeInfo) (includeCompatible : Bool)
    (sourcePath : List String) (e : FsEntry) : Option VideoRecord :=
  if ¬ sourcePath.isPrefixOf e.path then none
  else if 2000 * 1024 * 1024 < e.size then none
  else if !includeCompatible && (scanInfo probe e).2 then none
  else
    some { path := e.path, sizeBytes := e.size, format := (scanInfo probe e).1,
           compatible := (scanInfo probe e).2, status := "Ready", selected := true }

/-- `scan_videos_thread` (uncancelled run): the first pass keeps regular
files whose lower-cased suffix is in `VIDEO_EXTENSIONS` (line 1050); the
second pass maps `process_video_file` over them, dropping `None`s.  The
batching at lines 1074-1131 only orders UI emissions and is dropped. -/
def scan_videos (probe : List String → ProbeInfo) (includeCompatible : Bool)
    (sourcePath : List String) (entries : List FsEntry) : List VideoRecord :=
  let videoPaths := entries.filter
    (fun e => e.isFile && VIDEO_EXTENSIONS.contains (strLower (suffixOfName (nameOf e.path))))
  videoPaths.filterMap (process_video_file probe includeCompatible sourcePath)

/-! ## Transcode command (`build_ffmpeg_command`, lines 1571-1612) -/

/-- `QUALITY_PRESETS.get(self.quality_var.get(), '23')` -/
def qualityCrf (q : String) : String :=
  ((QUALITY_PRESETS.find? (fun p => p.1 = q)).map Prod.snd).getD "23"

def build_ffmpeg_command (quality resolution input_file output_file : String) : List String :=
  ["ffmpeg", "-i", input_file, "-y"]
  ++ ["-c:v", "libx264", "-c:a", "aac", "-profile:v", "high", "-level", "4.0",
      "-pix_fmt", "yuv420p"]
  ++ ["-crf", qualityCrf quality]
  ++ (if resolution ≠ "Original" && containsChar resolution 'x' then
        match splitOnChar resolution 'x' with
        | [w, h] => ["-vf", "scale=" ++ w ++ ":" ++ h ++ ":force_original_aspect_ratio=decrease"]
        | _ => []   -- the ValueError from tuple unpacking is caught; no filter added
      else [])
  ++ ["-ar", "44100", "-ab", "128k"]
  ++ ["-movflags", "+faststart"]
  ++ [output_file]

/-! ## Conversion pipeline (`convert_videos` / `convert_single_video` /
`backup_and_delete`, lines 1330-1631)

The destination path computation (identical at lines 1374-1379 and
1451-1458): the path relative to the source root when the input lies under
it, else just the file name, joined under the output root with the suffix
replaced by `.mp4`.  A `ValueError` raised by `with_suffix` (empty final
name) is modelled by `none`; both call sites catch it. -/

def convertDest (sourcePath outputPath inputPath : List String) : Option (List String) :=
  let rel : List String :=
    if sourcePath.isPrefixOf inputPath then inputPath.drop sourcePath.length
    else [nameOf inputPath]
  match rel.getLast? with
  | none => none
  | some nm =>
    if nm = "" then none
    else some (outputPath ++ (rel.dropLast ++ [withSuffixName nm ".mp4"]))

/-- `original.with_suffix(original.suffix + '.bak')` (line 1618). -/
def backupPathOf (orig : List String) : List String :=
  orig.dropLast ++ [withSuffixName (nameOf orig) (suffixOfName (nameOf orig) ++ ".bak")]

/-- Observable actions of one conversion run, in emission order: the
`ui_queue` messages of `convert_videos`, plus the external-process launch
and the filesystem actions of `backup_and_delete`. -/
inductive Ev where
  | updateTree (idx : Nat) (status : String) (progress : String)
  | status (msg : String)
  | progress (pct : Nat)
  | ffmpegCall (cmd : List String)
  | fsCopy (src dst : List String)
  | fsRemove (p : List String)
  | done (successful failed skipped : Nat)
deriving DecidableEq

/-- One selected record as the conversion loop consumes it: its index in
`self.video_files`, its path and probed fields. -/
structure ConvItem where
  idx : Nat
  path : List String
  format : String
  compatible : Bool
deriving DecidableEq

/-- Environment of a run: configured folders and options, and oracles for
the external effects — `ffmpegOk` is the exit-code-zero predicate of the
transcode process for a given input, `copyOk`/`removeOk` whether
`shutil.copy2`/`os.remove` succeed on a given original. -/
structure ConvEnv where
  sourcePath : List String
  outputPath : List String
  deleteOriginals : Bool
  quality : String
  resolution : String
  probe : List String → ProbeInfo
  ffmpegOk : List String → Bool
  copyOk : List String → Bool
  removeOk : List String → Bool

structure ConvState where
  fs : List (List String)
  successful : Nat
  failed : Nat
  skipped : Nat
deriving DecidableEq

/-- `backup_and_delete` (lines 1614-1631): copy the original to its `.bak`
sibling, then delete the original.  A failing copy raises inside the `try`,
so the delete is never reached; a failing delete leaves the backup and the
original.  `with_suffix` on an empty name raises before any action. -/
def backup_and_delete (env : ConvEnv) (fs : List (List String))
    (orig : List String) : List Ev × List (List String) :=
  match orig.getLast? with
  | none => ([], fs)
  | some _ =>
    let bak := backupPathOf orig
    if env.copyOk orig then
      if env.removeOk orig then
        ([Ev.fsCopy orig bak, Ev.fsRemove orig], (bak :: fs).erase orig)
      else
        ([Ev.fsCopy orig bak, Ev.fsRemove orig], bak :: fs)
    else ([Ev.fsCopy orig bak], fs)

/-- `convert_single_video` (lines 1441-1569) in the uncancelled,
non-timeout run: recompute the destination, return `True` without any
launch if it already exists, else launch ffmpeg and classify success by
exit code alone.  Result: (returned bool, emitted events, filesystem after
— the output file exists exactly when the tool exits 0). -/
def convert_single_video (env : ConvEnv) (fs : List (List String))
    (v : ConvItem) : Bool × List Ev × List (List String) :=
  match convertDest env.sourcePath env.outputPath v.path with
  | none => (false, [], fs)
  | some dest =>
    if dest ∈ fs then (true, [], fs)
    else
      let cmd := build_ffmpeg_command env.quality env.resolution (joinPath v.path) (joinPath dest)
      if env.ffmpegOk v.path then (true, [Ev.ffmpegCall cmd], dest :: fs)
      else (false, [Ev.ffmpegCall cmd], fs)

/-! ### IEEE-754 double-precision model of the progress computation

Line 1361 computes `progress = int((processed / total) * 100)` in Python
floats: a correctly rounded (round-to-nearest, ties-to-even) binary64
division, a correctly rounded multiplication by the exact double `100`,
and truncation toward zero.  The helpers below implement exactly that for
positive rationals in the normal range (no subnormals or overflow — the
quotients `k/n` of a run are far inside it), representing a double as a
dyadic rational `m / 2^s`.  This is not the exact value
`⌊100·k/n⌋`: e.g. `(29 / 100) * 100` evaluates to
`28.999999999999996`, so `int` yields `28`, one below the exact
percentage. -/

/-- Round-to-nearest, ties-to-even, of the rational `p / q` (with `q ≥ 1`)
to an integer. -/
def rnNat (p q : Nat) : Nat :=
  let d := p / q
  let r := p % q
  if 2 * r < q then d
  else if q < 2 * r then d + 1
  else if d % 2 = 0 then d else d + 1

/-- `⌊log2 n⌋` for `n ≥ 1`, by fuel-bounded structural recursion (the
core library's version is not kernel-reducible). -/
def natLog2F : Nat → Nat → Nat
  | 0, _ => 0
  | fuel + 1, n => if 2 ≤ n then natLog2F fuel (n / 2) + 1 else 0

def natLog2 (n : Nat) : Nat := natLog2F n n

/-- Smallest `t` with `b ≤ a * 2^t`, fuel-bounded (`fuel = b` suffices
for `a ≥ 1`). -/
def minShift (b : Nat) : Nat → Nat → Nat
  | _, 0 => 0
  | a, fuel + 1 => if b ≤ a then 0 else minShift b (2 * a) fuel + 1

/-- `⌊log2 (a / b)⌋` for `a, b ≥ 1`. -/
def ratLog2 (a b : Nat) : Int :=
  if b ≤ a then Int.ofNat (natLog2 (a / b))
  else - Int.ofNat (minShift b a b)

/-- The nearest binary64 double to the positive rational `a / b`
(round-half-even, normal range), as a dyadic pair `(m, s)` denoting
`m / 2^s`: the significand grid of the binade `[2^e, 2^(e+1))` of `a / b`
has spacing `2^(e-52)`. -/
def roundDouble (a b : Nat) : Nat × Nat :=
  let e := ratLog2 a b
  let s := (52 : Int) - e
  if 0 ≤ s then (rnNat (a * 2 ^ s.toNat) b, s.toNat)
  else (rnNat a (b * 2 ^ (- s).toNat) * 2 ^ (- s).toNat, 0)

/-- `int((k / n) * 100)` exactly as CPython evaluates line 1361 for
`0 ≤ k ≤ n`, `n ≥ 1`: true division rounds `k / n` to the nearest double,
the product with `100` rounds again, `int` truncates toward zero
(`0 / n` is exactly `0.0`). -/
def pyProgressPct (k n : Nat) : Nat :=
  if k = 0 then 0
  else
    let d1 := roundDouble k n
    let d2 := roundDouble (d1.1 * 100) (2 ^ d1.2)
    d2.1 / 2 ^ d2.2

/-- The three emissions at the top of each loop iteration
(lines 1356-1362): `Converting` row update, status line, and
`int((processed / total) * 100)` in double precision. -/
def convPre (n k : Nat) (v : ConvItem) : List Ev :=
  [Ev.updateTree v.idx "Converting" "0%",
   Ev.status ("Converting " ++ toString (k + 1) ++ "/" ++ toString n ++ ": " ++ nameOf v.path),
   Ev.progress (pyProgressPct k n)]

/-- One iteration of the `for processed, video in enumerate(selected)` loop
(lines 1340-1428).  The lazy re-probe of `Unknown` formats (1347-1350)
rewrites record fields none of the remaining body reads, and is omitted.
A destination-computation error is caught at line 1421 (`Error` row,
failed count).  An existing destination is counted skipped without any
call; otherwise the single-video conversion runs and, on success with
"delete originals" set, `backup_and_delete` runs before the terminal row
update. -/
def convStep (env : ConvEnv) (n k : Nat) (st : ConvState) (v : ConvItem) :
    ConvState × List Ev :=
  match convertDest env.sourcePath env.outputPath v.path with
  | none =>
    ({ st with failed := st.failed + 1 },
     convPre n k v ++ [Ev.updateTree v.idx "Error" "Error"])
  | some dest =>
    if dest ∈ st.fs then
      ({ st with skipped := st.skipped + 1 },
       convPre n k v ++ [Ev.updateTree v.idx "Skipped" "Exists"])
    else
      let r := convert_single_video env st.fs v
      if r.1 then
        let bd := if env.deleteOriginals then backup_and_delete env r.2.2 v.path
                  else ([], r.2.2)
        ({ st with fs := bd.2, successful := st.successful + 1 },
         convPre n k v ++ r.2.1 ++ bd.1 ++ [Ev.updateTree v.idx "Converted" "100%"])
      else
        ({ st with fs := r.2.2, failed := st.failed + 1 },
         convPre n k v ++ r.2.1 ++ [Ev.updateTree v.idx "Failed" "Failed"])

def convLoop (env : ConvEnv) (n : Nat) : Nat → ConvState → List ConvItem →
    ConvState × List Ev
  | _, st, [] => (st, [])
  | k, st, v :: rest =>
    let s1 := convStep env n k st v
    let s2 := convLoop env n (k + 1) s1.1 rest
    (s2.1, s1.2 ++ s2.2)

/-- `convert_videos` (lines 1330-1439), uncancelled run over the selected
records starting from filesystem `fs0`: the loop, then the final
`('progress', 100)` and `('conversion_done', …)` emissions. -/
def convert_videos (env : ConvEnv) (fs0 : List (List String))
    (items : List ConvItem) : ConvState × List Ev :=
  let r := convLoop env items.length 0 ⟨fs0, 0, 0, 0⟩ items
  (r.1, r.2 ++ [Ev.progress 100, Ev.done r.1.successful r.1.failed r.1.skipped])

/-! ## Bounded LRU cache (`LRUCache`, lines 176-222)

The source keeps a dict `cache` and a deque `access_order` of its keys in
recency order, always in sync; the pair is embedded as the single
association list `entries` in access order (head = least recently used).
Keys are generic with decidable equality (the source uses `str` paths).
The thread lock serialises mutations and has no sequential content. -/

structure LRUCache (K V : Type) where
  maxsize : Nat
  entries : List (K × V)
deriving DecidableEq

/-- `LRUCache(maxsize)`: empty cache. -/
def LRUCache.mkEmpty (K V : Type) (maxsize : Nat) : LRUCache K V :=
  { maxsize := maxsize, entries := [] }

/-- `get`: on a hit, move the key to the most-recent end and return its
value; on a miss return `None` and leave the cache unchanged. -/
def LRUCache.get {K V : Type} [DecidableEq K] (c : LRUCache K V) (k : K) :
    Option V × LRUCache K V :=
  match c.entries.find? (fun e => decide (e.1 = k)) with
  | some e =>
    (some e.2,
     { c with entries := c.entries.eraseP (fun e => decide (e.1 = k)) ++ [(k, e.2)] })
  | none => (none, c)

/-- `put`: update-and-touch an existing key; otherwise evict the
least-recently-used entry first when at capacity, then append.
(For `maxsize = 0` the source's `popleft` on an empty deque would raise;
every constructed cache has positive capacity — `MAX_CACHE_SIZE`.) -/
def LRUCache.put {K V : Type} [DecidableEq K] (c : LRUCache K V) (k : K) (v : V) :
    LRUCache K V :=
  if c.entries.any (fun e => decide (e.1 = k)) then
    { c with entries := c.entries.eraseP (fun e => decide (e.1 = k)) ++ [(k, v)] }
  else if c.maxsize ≤ c.entries.length then
    { c with entries := c.entries.tail ++ [(k, v)] }
  else
    { c with entries := c.entries ++ [(k, v)] }

inductive LruOp (K V : Type) where
  | get (k : K)
  | put (k : K) (v : V)

def LRUCache.applyOp {K V : Type} [DecidableEq K] (c : LRUCache K V) :
    LruOp K V → LRUCache K V
  | .get k => (c.get k).2
  | .put k v => c.put k v

def LRUCache.runOps {K V : Type} [DecidableEq K] (c : LRUCache K V)
    (ops : List (LruOp K V)) : LRUCache K V :=
  ops.foldl LRUCache.applyOp c

def LRUCache.putAll {K V : Type} [DecidableEq K] (c : LRUCache K V)
    (kvs : List (K × V)) : LRUCache K V :=
  kvs.foldl (fun c e => c.put e.1 e.2) c

/-- The key set in recency order (the deque `access_order`). -/
def LRUCache.keysOf {K V : Type} (c : LRUCache K V) : List K :=
  c.entries.map Prod.fst

/-! ## Trace observations used by the claims about the conversion run -/

/-- Terminal per-file row updates of the loop body. -/
def isTerminal : Ev → Bool
  | .updateTree _ s _ =>
    s = "Skipped" || s = "Converted" || s = "Failed" || s = "Error"
  | _ => false

def isProgressEv : Ev → Bool
  | .progress _ => true
  | _ => false

/-- Projection of a trace to its progress and terminal-status emissions. -/
def keyEvents (evs : List Ev) : List Ev :=
  evs.filter (fun e => isProgressEv e || isTerminal e)

/-- The shape `progress pct(k,n), terminal_k, progress pct(k+1,n), …`
with `pct = pyProgressPct`: each file's terminal status followed by the
aggregate progress value of the next iteration. -/
def keyShape (n : Nat) : Nat → List Ev → List Ev
  | _, [] => []
  | k, t :: ts => Ev.progress (pyProgressPct k n) :: t :: keyShape n (k + 1) ts

/-- A non-deletion event is always allowed; a deletion of `p` is allowed
only when the directly preceding event is the copy of `p` to its backup. -/
def removeGuard (prev : Option Ev) (e : Ev) : Bool :=
  match e, prev with
  | .fsRemove p, some (.fsCopy q b) => q = p && b = backupPathOf p
  | .fsRemove _, _ => false
  | _, _ => true

/-- Every `fsRemove p` in the trace is immediately preceded by
`fsCopy p (backupPathOf p)` — a deletion only ever follows its own
successful backup copy.  `prev` is the preceding event, if any. -/
def safeDeletesFrom (prev : Option Ev) : List Ev → Bool
  | [] => true
  | e :: rest => removeGuard prev e && safeDeletesFrom (some e) rest

def safeDeletes (evs : List Ev) : Bool := safeDeletesFrom none evs

/-- A fixed probe oracle used to instantiate universally quantified
statements on concrete inputs. -/
def probeW : List String → ProbeInfo := fun _ => ⟨"MP4", true, "h264"⟩

/-! ## Theorems -/

theorem process_video_file_some {probe : List String → ProbeInfo} {ic : Bool}
    {sp : List String} {e : FsEntry} {r : VideoRecord}
    (h : process_video_file probe ic sp e = some r) :
    r.path = e.path ∧ r.sizeBytes = e.size := by
  unfold process_video_file at h
  split at h
  · exact absurd h (by simp)
  · split at h
    · exact absurd h (by simp)
    · split at h
      · exact absurd h (by simp)
      · cases h
        exact ⟨rfl, rfl⟩

theorem process_video_file_none_of_huge {probe : List String → ProbeInfo} {ic : Bool}
    {sp : List String} {e : FsEntry} (h : 2000 * 1024 * 1024 < e.size) :
    process_video_file probe ic sp e = none := by
  simp [process_video_file, h]

/-- C3: every record produced by a scan has a file extension whose
lower-cased form is in the fixed allow-list; nothing else is returned. -/
theorem scan_extension_in_allowlist (probe : List String → ProbeInfo) (ic : Bool)
    (sp : List String) (entries : List FsEntry) (r : VideoRecord)
    (hr : r ∈ scan_videos probe ic sp entries) :
    strLower (suffixOfName (nameOf r.path)) ∈ VIDEO_EXTENSIONS := by
  unfold scan_videos at hr
  rw [List.mem_filterMap] at hr
  obtain ⟨e, he, hpe⟩ := hr
  rw [List.mem_filter] at he
  have hext := he.2
  rw [Bool.and_eq_true] at hext
  have hpath := (process_video_file_some hpe).1
  rw [hpath]
  simpa using hext.2

theorem scan_extension_in_allowlist_w :
    strLower (suffixOfName (nameOf
      (VideoRecord.mk ["s", "x.AVI"] 5 "MP4" true "Ready" true).path)) ∈ VIDEO_EXTENSIONS :=
  scan_extension_in_allowlist probeW true ["s"]
    [FsEntry.mk ["s", "x.AVI"] 5 true, FsEntry.mk ["s", "y.txt"] 5 true]
    (VideoRecord.mk ["s", "x.AVI"] 5 "MP4" true "Ready" true) (by decide)

/-- C6: on any outcome other than a successful, parsable probe,
`get_video_info` returns the sentinel result — `compatible = false`,
format `"Timeout"` or `"Error"`, codec `"Unknown"`; being a total function
of the outcome, it propagates no exception. -/
theorem probe_failure_sentinel (o : ProbeOutcome)
    (h : ∀ j, o ≠ ProbeOutcome.success j) :
    (get_video_info o).compatible = false ∧
    ((get_video_info o).format = "Timeout" ∨ (get_video_info o).format = "Error") ∧
    (get_video_info o).codec = "Unknown" := by
  cases o with
  | success j => exact absurd rfl (h j)
  | timeout => exact ⟨rfl, Or.inl rfl, rfl⟩
  | nonzeroExit => exact ⟨rfl, Or.inr rfl, rfl⟩
  | badJson => exact ⟨rfl, Or.inr rfl, rfl⟩
  | otherError => exact ⟨rfl, Or.inr rfl, rfl⟩

theorem probe_failure_sentinel_w :
    (get_video_info ProbeOutcome.timeout).compatible = false ∧
    ((get_video_info ProbeOutcome.timeout).format = "Timeout" ∨
      (get_video_info ProbeOutcome.timeout).format = "Error") ∧
    (get_video_info ProbeOutcome.timeout).codec = "Unknown" :=
  probe_failure_sentinel ProbeOutcome.timeout (fun _ h => nomatch h)

/-- C10: a discovered file larger than 2000 MB yields no record from
`process_video_file`, and consequently no scan result ever carries more
than 2000 MB. -/
theorem huge_files_never_scanned (probe : List String → ProbeInfo) (ic : Bool)
    (sp : List String) :
    (∀ e : FsEntry, 2000 * 1024 * 1024 < e.size →
       process_video_file probe ic sp e = none) ∧
    (∀ entries r, r ∈ scan_videos probe ic sp entries →
       r.sizeBytes ≤ 2000 * 1024 * 1024) := by
  constructor
  · intro e h
    exact process_video_file_none_of_huge h
  · intro entries r hr
    unfold scan_videos at hr
    rw [List.mem_filterMap] at hr
    obtain ⟨e, _, hpe⟩ := hr
    rw [(process_video_file_some hpe).2]
    by_contra hgt
    rw [Nat.not_le] at hgt
    rw [process_video_file_none_of_huge hgt] at hpe
    exact absurd hpe (by simp)

theorem huge_files_never_scanned_w :
    process_video_file probeW true ["s"]
      (FsEntry.mk ["s", "x.mp4"] (2001 * 1024 * 1024) true) = none :=
  (huge_files_never_scanned probeW true ["s"]).1 _ (by decide)

/-- C7 counterexample: a 2001 MB file is at or above the 50 MB large-file
threshold, yet the scan excludes it entirely (the 2 GB guard returns no
record), refuting "such a file is always included in the scan result". -/
theorem large_file_always_included_cex :
    LARGE_FILE_THRESHOLD ≤ 2001 * 1024 * 1024 ∧
    process_video_file probeW false ["s"]
      (FsEntry.mk ["s", "huge.mov"] (2001 * 1024 * 1024) true) = none := by
  constructor
  · decide
  · rfl

/-- C7 (amended to files of at most 2000 MB): a discovered file under the
source root whose size is at least the 50 MB threshold and at most
2000 MB is recorded with format `"Unknown"` and `compatible = false`,
independently of the probe and of the "skip compatible" option. -/
theorem large_file_recorded_unprobed (sp : List String) (e : FsEntry)
    (h1 : sp.isPrefixOf e.path = true)
    (h2 : LARGE_FILE_THRESHOLD ≤ e.size)
    (h3 : e.size ≤ 2000 * 1024 * 1024) :
    ∀ (probe : List String → ProbeInfo) (ic : Bool),
      process_video_file probe ic sp e =
        some { path := e.path, sizeBytes := e.size, format := "Unknown",
               compatible := false, status := "Ready", selected := true } := by
  intro probe ic
  have hsi : scanInfo probe e = ("Unknown", false) := by
    unfold scanInfo
    rw [if_neg (Nat.not_lt.mpr h2)]
  unfold process_video_file
  rw [if_neg (by simp [h1]), if_neg (Nat.not_lt.mpr h3), hsi]
  simp

theorem large_file_recorded_unprobed_w :
    process_video_file probeW false ["s"]
      (FsEntry.mk ["s", "big.mov"] (60 * 1024 * 1024) true) =
      some { path := ["s", "big.mov"], sizeBytes := 60 * 1024 * 1024,
             format := "Unknown", compatible := false, status := "Ready",
             selected := true } :=
  large_file_recorded_unprobed ["s"] (FsEntry.mk ["s", "big.mov"] (60 * 1024 * 1024) true)
    (by decide) (by decide) (by decide) probeW false

/-- C8: the rate-control (CRF) values of the quality presets are strictly
increasing from `high` to `low` (lower = better quality), an unrecognized
quality falls back to the `medium` value, and the selected value is what
`build_ffmpeg_command` places after `-crf`. -/
theorem quality_crf_monotone :
    (∃ h m l : Nat, strToNat? (qualityCrf "high") = some h ∧
       strToNat? (qualityCrf "medium") = some m ∧ strToNat? (qualityCrf "low") = some l ∧
       h < m ∧ m < l) ∧
    (∀ q : String, q ≠ "high" → q ≠ "medium" → q ≠ "low" →
       qualityCrf q = qualityCrf "medium") ∧
    (∀ q res i o, ∃ s t, build_ffmpeg_command q res i o = s ++ ["-crf", qualityCrf q] ++ t) := by
  refine ⟨⟨18, 23, 28, by decide, by decide, by decide, by decide, by decide⟩, ?_, ?_⟩
  · intro q h1 h2 h3
    simp [qualityCrf, QUALITY_PRESETS, List.find?, Ne.symm h1, Ne.symm h2, Ne.symm h3]
  · intro q res i o
    exact ⟨["ffmpeg", "-i", i, "-y", "-c:v", "libx264", "-c:a", "aac", "-profile:v",
            "high", "-level", "4.0", "-pix_fmt", "yuv420p"],
           (if res ≠ "Original" && containsChar res 'x' then
              match splitOnChar res 'x' with
              | [w, h] => ["-vf", "scale=" ++ w ++ ":" ++ h ++ ":force_original_aspect_ratio=decrease"]
              | _ => []
            else [])
           ++ ["-ar", "44100", "-ab", "128k"] ++ ["-movflags", "+faststart"] ++ [o],
           by simp [build_ffmpeg_command]⟩

theorem quality_crf_monotone_w : qualityCrf "ultra" = qualityCrf "medium" :=
  quality_crf_monotone.2.1 "ultra" (by decide) (by decide) (by decide)

theorem getLast?_drop_of_lt {α : Type} :
    ∀ (l : List α) (n : Nat), n < l.length → (l.drop n).getLast? = l.getLast?
  | _, 0, _ => rfl
  | [], n + 1, h => by simp at h
  | a :: t, n + 1, h => by
    rw [List.drop_succ_cons]
    have ht : n < t.length := by simpa using h
    rw [getLast?_drop_of_lt t n ht]
    cases t with
    | nil => simp at ht
    | cons b t2 => rw [List.getLast?_cons_cons]

/-- C4: for a record whose path lies strictly under the source root and
carries an extension, the computed conversion destination is the output
root joined with the path relative to the source root, with the extension
replaced by `.mp4` — the directory structure below the source root is kept
verbatim. -/
theorem dest_preserves_relative_structure (sp op ip : List String)
    (h1 : sp.isPrefixOf ip = true) (h2 : sp.length < ip.length)
    (h3 : suffixOfName (nameOf ip) ≠ "") :
    convertDest sp op ip =
      some (op ++ ((ip.drop sp.length).dropLast ++
        [strDropRight (nameOf ip) (suffixOfName (nameOf ip)).length ++ ".mp4"])) := by
  have hlast : (ip.drop sp.length).getLast? = ip.getLast? := getLast?_drop_of_lt ip sp.length h2
  have hip : ip ≠ [] := by
    intro hc
    rw [hc] at h2
    simp at h2
  obtain ⟨nm, hnm⟩ : ∃ nm, ip.getLast? = some nm := by
    cases hg : ip.getLast? with
    | none => exact absurd (List.getLast?_eq_none_iff.mp hg) hip
    | some x => exact ⟨x, rfl⟩
  have hname : nameOf ip = nm := by rw [nameOf, hnm]; rfl
  have hnm_ne : nm ≠ "" := by
    intro hc
    apply h3
    rw [hname, hc]
    rfl
  unfold convertDest
  simp only [h1, if_true, hlast, hnm]
  rw [if_neg hnm_ne, hname]
  rw [hname] at h3
  simp [withSuffixName, h3]

theorem dest_preserves_relative_structure_w :
    convertDest ["root", "src"] ["out"] ["root", "src", "d", "v.mov"] =
      some (["out"] ++ ((["root", "src", "d", "v.mov"].drop ["root", "src"].length).dropLast ++
        [strDropRight (nameOf ["root", "src", "d", "v.mov"])
          (suffixOfName (nameOf ["root", "src", "d", "v.mov"])).length ++ ".mp4"])) :=
  dest_preserves_relative_structure ["root", "src"] ["out"] ["root", "src", "d", "v.mov"]
    (by decide) (by decide) (by decide)

/-- C1: an iteration of the conversion loop whose computed destination
already exists in the current filesystem marks the record `Skipped`,
increments the skipped count, leaves the filesystem and the other counts
untouched, and emits no external transcode invocation. -/
theorem convert_skips_existing_destination (env : ConvEnv) (n k : Nat) (st : ConvState)
    (v : ConvItem) (dest : List String)
    (hd : convertDest env.sourcePath env.outputPath v.path = some dest)
    (hfs : dest ∈ st.fs) :
    (convStep env n k st v).1 = { st with skipped := st.skipped + 1 } ∧
    (convStep env n k st v).2 = convPre n k v ++ [Ev.updateTree v.idx "Skipped" "Exists"] ∧
    ∀ c, Ev.ffmpegCall c ∉ (convStep env n k st v).2 := by
  have hstep : convStep env n k st v =
      ({ st with skipped := st.skipped + 1 },
       convPre n k v ++ [Ev.updateTree v.idx "Skipped" "Exists"]) := by
    unfold convStep
    simp only [hd]
    rw [if_pos hfs]
  refine ⟨by rw [hstep], by rw [hstep], ?_⟩
  intro c hc
  rw [hstep] at hc
  simp [convPre] at hc

/-- A fixed environment, state and item for concrete instantiations. -/
def envW : ConvEnv :=
  ⟨["s"], ["o"], false, "medium", "Original", probeW,
   fun _ => true, fun _ => true, fun _ => true⟩

def stW : ConvState := ⟨[["o", "a.mp4"]], 0, 0, 0⟩

def vW : ConvItem := ⟨0, ["s", "a.mov"], "MOV", false⟩

theorem convert_skips_existing_destination_w :
    (convStep envW 1 0 stW vW).1 = { stW with skipped := stW.skipped + 1 } ∧
    (convStep envW 1 0 stW vW).2 = convPre 1 0 vW ++ [Ev.updateTree vW.idx "Skipped" "Exists"] ∧
    ∀ c, Ev.ffmpegCall c ∉ (convStep envW 1 0 stW vW).2 :=
  convert_skips_existing_destination envW 1 0 stW vW ["o", "a.mp4"] (by decide) (by decide)

theorem LRUCache.maxsize_applyOp {K V : Type} [DecidableEq K] (c : LRUCache K V)
    (op : LruOp K V) : (c.applyOp op).maxsize = c.maxsize := by
  cases op with
  | get k =>
    show (c.get k).2.maxsize = c.maxsize
    unfold LRUCache.get
    split <;> rfl
  | put k v =>
    show (c.put k v).maxsize = c.maxsize
    unfold put
    split
    · rfl
    · split <;> rfl

theorem LRUCache.maxsize_runOps {K V : Type} [DecidableEq K] :
    ∀ (ops : List (LruOp K V)) (c : LRUCache K V), (c.runOps ops).maxsize = c.maxsize
  | [], _ => rfl
  | op :: ops, c => by
    show ((c.applyOp op).runOps ops).maxsize = c.maxsize
    rw [maxsize_runOps ops, maxsize_applyOp]

theorem LRUCache.length_applyOp_le {K V : Type} [DecidableEq K] (c : LRUCache K V)
    (op : LruOp K V) (hN : 1 ≤ c.maxsize) (h : c.entries.length ≤ c.maxsize) :
    (c.applyOp op).entries.length ≤ c.maxsize := by
  cases op with
  | get k =>
    show (c.get k).2.entries.length ≤ c.maxsize
    unfold LRUCache.get
    cases hf : c.entries.find? (fun e => decide (e.1 = k)) with
    | none => exact h
    | some e =>
      simp only
      have hlen := List.length_eraseP_add_one (List.mem_of_find?_eq_some hf)
        (List.find?_some hf)
      rw [List.length_append, List.length_singleton]
      omega
  | put k v =>
    show (c.put k v).entries.length ≤ c.maxsize
    unfold put
    split
    · next hmem =>
      rw [List.any_eq_true] at hmem
      obtain ⟨x, hx, hpx⟩ := hmem
      simp only
      have := List.length_eraseP_add_one (p := fun e => decide (e.1 = k)) hx hpx
      rw [List.length_append, List.length_singleton]
      omega
    · split
      · next hcap =>
        simp only
        rw [List.length_append, List.length_singleton, List.length_tail]
        omega
      · next hcap =>
        simp only
        rw [List.length_append, List.length_singleton]
        omega

theorem LRUCache.length_runOps_le {K V : Type} [DecidableEq K] :
    ∀ (ops : List (LruOp K V)) (c : LRUCache K V), 1 ≤ c.maxsize →
      c.entries.length ≤ c.maxsize → (c.runOps ops).entries.length ≤ c.maxsize
  | [], _, _, h => h
  | op :: ops, c, hN, h => by
    show ((c.applyOp op).runOps ops).entries.length ≤ c.maxsize
    rw [← maxsize_applyOp c op]
    exact length_runOps_le ops (c.applyOp op) (by rw [maxsize_applyOp]; exact hN)
      (by rw [maxsize_applyOp]; exact length_applyOp_le c op hN h)

theorem LRUCache.putAll_fresh_entries {K V : Type} [DecidableEq K] :
    ∀ (kvs : List (K × V)) (c : LRUCache K V), 1 ≤ c.maxsize →
      c.entries.length ≤ c.maxsize → (kvs.map Prod.fst).Nodup →
      (∀ a ∈ kvs, ∀ b ∈ c.entries, b.1 ≠ a.1) →
      (c.putAll kvs).entries =
        (c.entries ++ kvs).drop (c.entries.length + kvs.length - c.maxsize)
  | [], c, _, h, _, _ => by
    rw [Nat.sub_eq_zero_of_le (by simpa using h)]
    simp [putAll]
  | (k, v) :: rest, c, hN, h, hnodup, hdisj => by
    have hfresh : ∀ b ∈ c.entries, b.1 ≠ k := fun b hb =>
      hdisj (k, v) (List.mem_cons_self _ _) b hb
    have hany : c.entries.any (fun e => decide (e.1 = k)) = false := by
      rw [List.any_eq_false]
      intro x hx
      simpa using hfresh x hx
    have hstep : c.putAll ((k, v) :: rest) = (c.put k v).putAll rest := rfl
    have hknotin : k ∉ rest.map Prod.fst := by
      have := hnodup
      rw [List.map_cons, List.nodup_cons] at this
      exact this.1
    have hnodup' : (rest.map Prod.fst).Nodup := by
      rw [List.map_cons] at hnodup
      exact hnodup.of_cons
    have hkfresh : ∀ a ∈ rest, (k, v).1 ≠ a.1 := by
      intro a ha hc
      apply hknotin
      rw [show k = a.1 from hc]
      exact List.mem_map_of_mem Prod.fst ha
    rw [hstep]
    unfold put
    rw [hany]
    simp only [Bool.false_eq_true, if_false]
    split
    · next hcap =>
      have hlen : c.entries.length = c.maxsize := le_antisymm h hcap
      obtain ⟨hd, tl, hce⟩ : ∃ hd tl, c.entries = hd :: tl := by
        cases hck : c.entries with
        | nil =>
          rw [hck] at hlen
          simp at hlen
          omega
        | cons x xs => exact ⟨x, xs, rfl⟩
      have ih := putAll_fresh_entries rest
        ({ c with entries := c.entries.tail ++ [(k, v)] }) (by simpa using hN)
        (by
          simp only [List.length_append, List.length_singleton, List.length_tail]
          omega)
        hnodup'
        (by
          intro a ha b hb
          rcases List.mem_append.mp hb with hb1 | hb2
          · exact hdisj a (List.mem_cons_of_mem _ ha) b (List.mem_of_mem_tail hb1)
          · have hbk : b = (k, v) := by simpa using hb2
            rw [hbk]
            exact hkfresh a ha)
      rw [ih]
      rw [hce]
      have hlen' : tl.length + 1 = c.maxsize := by
        rw [hce] at hlen
        simpa using hlen
      simp only [List.tail_cons, List.length_append, List.length_cons, List.length_nil,
        Nat.zero_add]
      have hidx1 : tl.length + 1 + rest.length - c.maxsize = rest.length := by omega
      have hidx2 : tl.length + 1 + (rest.length + 1) - c.maxsize = rest.length + 1 := by
        omega
      rw [hidx1, hidx2, List.cons_append, List.drop_succ_cons, List.append_assoc,
        List.singleton_append]
    · next hcap =>
      have ih := putAll_fresh_entries rest
        ({ c with entries := c.entries ++ [(k, v)] }) (by simpa using hN)
        (by
          simp only [List.length_append, List.length_singleton]
          omega)
        hnodup'
        (by
          intro a ha b hb
          rcases List.mem_append.mp hb with hb1 | hb2
          · exact hdisj a (List.mem_cons_of_mem _ ha) b hb1
          · have hbk : b = (k, v) := by simpa using hb2
            rw [hbk]
            exact hkfresh a ha)
      rw [ih]
      rw [List.append_assoc, List.singleton_append]
      congr 1
      simp only [List.length_append, List.length_cons, List.length_nil, Nat.zero_add]
      omega

/-- C5: starting from an empty cache of capacity `N ≥ 1`, no sequence of
`get`/`put` operations ever leaves more than `N` entries, and inserting
`N + 1` distinct keys leaves exactly the `N` most-recently-used ones (the
first-inserted, least-recently-used key is the one evicted). -/
theorem lru_capacity_and_eviction (K V : Type) [DecidableEq K] (N : Nat)
    (hN : 1 ≤ N) :
    (∀ ops : List (LruOp K V), ((LRUCache.mkEmpty K V N).runOps ops).entries.length ≤ N) ∧
    (∀ kvs : List (K × V), kvs.length = N + 1 → (kvs.map Prod.fst).Nodup →
       ((LRUCache.mkEmpty K V N).putAll kvs).keysOf = (kvs.map Prod.fst).drop 1) := by
  constructor
  · intro ops
    exact LRUCache.length_runOps_le ops (LRUCache.mkEmpty K V N) hN (by simp [LRUCache.mkEmpty])
  · intro kvs hlen hnodup
    have h := LRUCache.putAll_fresh_entries kvs (LRUCache.mkEmpty K V N) hN
      (by simp [LRUCache.mkEmpty]) hnodup
      (by intro a _ b hb; exact absurd hb (List.not_mem_nil b))
    rw [LRUCache.keysOf, h]
    simp only [LRUCache.mkEmpty, List.nil_append, List.length_nil, Nat.zero_add, hlen,
      Nat.add_sub_cancel_left, List.map_drop]

theorem lru_capacity_and_eviction_w :
    ((LRUCache.mkEmpty Nat Nat 2).runOps
        [LruOp.put 1 10, LruOp.put 2 20, LruOp.get 1, LruOp.put 3 30]).entries.length ≤ 2 ∧
    ((LRUCache.mkEmpty Nat Nat 2).putAll [(1, 10), (2, 20), (3, 30)]).keysOf = [2, 3] := by
  have h := lru_capacity_and_eviction Nat Nat 2 (by decide)
  refine ⟨h.1 _, ?_⟩
  rw [h.2 [(1, 10), (2, 20), (3, 30)] rfl (by decide)]
  rfl

theorem convert_single_video_eq (env : ConvEnv) (fs : List (List String))
    (v : ConvItem) (dest : List String)
    (hd : convertDest env.sourcePath env.outputPath v.path = some dest)
    (hnfs : dest ∉ fs) :
    convert_single_video env fs v =
      (env.ffmpegOk v.path,
       [Ev.ffmpegCall (build_ffmpeg_command env.quality env.resolution
          (joinPath v.path) (joinPath dest))],
       if env.ffmpegOk v.path then dest :: fs else fs) := by
  unfold convert_single_video
  simp only [hd]
  rw [if_neg hnfs]
  cases hok : env.ffmpegOk v.path <;> simp [hok]

/-- The last element of `a`, or `prev` when `a` is empty: the event
preceding whatever comes after `prev ++ a`. -/
def lastOr (prev : Option Ev) : List Ev → Option Ev
  | [] => prev
  | e :: rest => lastOr (some e) rest

theorem safeDeletesFrom_append (b : List Ev) :
    ∀ (a : List Ev) (prev : Option Ev),
      safeDeletesFrom prev (a ++ b) =
        (safeDeletesFrom prev a && safeDeletesFrom (lastOr prev a) b)
  | [], prev => by simp [safeDeletesFrom, lastOr]
  | e :: rest, prev => by
    have ih := safeDeletesFrom_append b rest (some e)
    simp only [List.cons_append, safeDeletesFrom, lastOr, List.append_eq, ih,
      Bool.and_assoc]

theorem convStep_safe (env : ConvEnv) (n k : Nat) (st : ConvState) (v : ConvItem)
    (prev : Option Ev) : safeDeletesFrom prev (convStep env n k st v).2 = true := by
  unfold convStep
  cases hd : convertDest env.sourcePath env.outputPath v.path with
  | none => simp [safeDeletesFrom, removeGuard, convPre]
  | some dest =>
    simp only
    by_cases hfs : dest ∈ st.fs
    · rw [if_pos hfs]
      simp [safeDeletesFrom, removeGuard, convPre]
    · rw [if_neg hfs]
      rw [convert_single_video_eq env st.fs v dest hd hfs]
      cases hok : env.ffmpegOk v.path
      · simp [safeDeletesFrom, removeGuard, convPre]
      · simp only [if_true]
        cases hdel : env.deleteOriginals
        · simp [safeDeletesFrom, removeGuard, convPre]
        · simp only [if_true]
          unfold backup_and_delete
          cases hl : v.path.getLast? with
          | none => simp [safeDeletesFrom, removeGuard, convPre]
          | some nm =>
            simp only
            cases hcp : env.copyOk v.path
            · simp [safeDeletesFrom, removeGuard, convPre]
            · cases hrm : env.removeOk v.path <;>
                simp [safeDeletesFrom, removeGuard, convPre]

theorem convLoop_safe (env : ConvEnv) :
    ∀ (items : List ConvItem) (n k : Nat) (st : ConvState) (prev : Option Ev),
      safeDeletesFrom prev (convLoop env n k st items).2 = true
  | [], _, _, _, _ => rfl
  | v :: rest, n, k, st, prev => by
    show safeDeletesFrom prev
      ((convStep env n k st v).2 ++ (convLoop env n (k + 1) (convStep env n k st v).1 rest).2)
        = true
    rw [safeDeletesFrom_append]
    rw [convStep_safe env n k st v prev,
      convLoop_safe env rest n (k + 1) (convStep env n k st v).1
        (lastOr prev (convStep env n k st v).2)]
    rfl

theorem convStep_remove (env : ConvEnv) (n k : Nat) (st : ConvState) (v : ConvItem)
    (p : List String) (h : Ev.fsRemove p ∈ (convStep env n k st v).2) :
    p = v.path ∧ env.copyOk p = true ∧ env.deleteOriginals = true ∧
      env.ffmpegOk p = true := by
  unfold convStep at h
  cases hd : convertDest env.sourcePath env.outputPath v.path with
  | none =>
    rw [hd] at h
    simp [convPre] at h
  | some dest =>
    rw [hd] at h
    simp only at h
    by_cases hfs : dest ∈ st.fs
    · rw [if_pos hfs] at h
      simp [convPre] at h
    · rw [if_neg hfs] at h
      rw [convert_single_video_eq env st.fs v dest hd hfs] at h
      cases hok : env.ffmpegOk v.path
      · rw [hok] at h
        simp [convPre] at h
      · rw [hok] at h
        simp only [if_true] at h
        cases hdel : env.deleteOriginals
        · rw [hdel] at h
          simp [convPre] at h
        · rw [hdel] at h
          simp only [if_true] at h
          unfold backup_and_delete at h
          cases hl : v.path.getLast? with
          | none =>
            rw [hl] at h
            simp [convPre] at h
          | some nm =>
            rw [hl] at h
            simp only at h
            cases hcp : env.copyOk v.path
            · rw [hcp] at h
              simp [convPre] at h
            · rw [hcp] at h
              cases hrm : env.removeOk v.path <;>
              · rw [hrm] at h
                simp [convPre] at h
                cases h
                simp_all

theorem convLoop_remove (env : ConvEnv) :
    ∀ (items : List ConvItem) (n k : Nat) (st : ConvState) (p : List String),
      Ev.fsRemove p ∈ (convLoop env n k st items).2 →
      env.copyOk p = true ∧ env.deleteOriginals = true ∧ env.ffmpegOk p = true ∧
        ∃ v ∈ items, v.path = p
  | [], _, _, _, p, h => absurd h (by simp [convLoop])
  | v :: rest, n, k, st, p, h => by
    have h' : Ev.fsRemove p ∈ (convStep env n k st v).2 ∨
        Ev.fsRemove p ∈ (convLoop env n (k + 1) (convStep env n k st v).1 rest).2 := by
      rw [show (convLoop env n k st (v :: rest)).2
          = (convStep env n k st v).2 ++ (convLoop env n (k + 1) (convStep env n k st v).1 rest).2
          from rfl] at h
      exact List.mem_append.mp h
    rcases h' with h1 | h2
    · obtain ⟨hp, hcp, hdel, hok⟩ := convStep_remove env n k st v p h1
      exact ⟨hcp, hdel, hok, v, List.mem_cons_self _ _, hp.symm⟩
    · obtain ⟨hcp, hdel, hok, w, hw, hwp⟩ :=
        convLoop_remove env rest n (k + 1) (convStep env n k st v).1 p h2
      exact ⟨hcp, hdel, hok, w, List.mem_cons_of_mem _ hw, hwp⟩

theorem convStep_fs_mem (env : ConvEnv) (n k : Nat) (st : ConvState) (v : ConvItem)
    (p : List String) (hc : env.copyOk p = false) (hp : p ∈ st.fs) :
    p ∈ (convStep env n k st v).1.fs := by
  unfold convStep
  cases hd : convertDest env.sourcePath env.outputPath v.path with
  | none => exact hp
  | some dest =>
    simp only
    by_cases hfs : dest ∈ st.fs
    · rw [if_pos hfs]
      exact hp
    · rw [if_neg hfs]
      rw [convert_single_video_eq env st.fs v dest hd hfs]
      cases hok : env.ffmpegOk v.path
      · simpa using hp
      · simp only [if_true]
        have hp' : p ∈ dest :: st.fs := List.mem_cons_of_mem _ hp
        cases hdel : env.deleteOriginals
        · simpa using hp'
        · simp only [if_true]
          unfold backup_and_delete
          cases hl : v.path.getLast? with
          | none => simpa using hp'
          | some nm =>
            simp only
            cases hcp : env.copyOk v.path
            · simpa using hp'
            · have hne : p ≠ v.path := by
                intro hc2
                rw [hc2] at hc
                rw [hc] at hcp
                exact absurd hcp (by simp)
              cases hrm : env.removeOk v.path
              · simpa using List.mem_cons_of_mem _ hp'
              · simp only
                exact (List.mem_erase_of_ne hne).mpr
                  (List.mem_cons_of_mem _ hp')

theorem convLoop_fs_mem (env : ConvEnv) :
    ∀ (items : List ConvItem) (n k : Nat) (st : ConvState) (p : List String),
      env.copyOk p = false → p ∈ st.fs → p ∈ (convLoop env n k st items).1.fs
  | [], _, _, _, _, _, hp => hp
  | v :: rest, n, k, st, p, hc, hp =>
    convLoop_fs_mem env rest n (k + 1) (convStep env n k st v).1 p hc
      (convStep_fs_mem env n k st v p hc hp)

/-- C2: in a whole conversion run, (i) every deletion of an original is
immediately preceded by the successful copy of that original to its
`.bak` sibling; (ii) a deletion of `p` only happens when "delete
originals" is on, the backup copy of `p` succeeded, and `p` is the path of
a selected record whose transcode succeeded; (iii) when the backup copy of
`p` fails, `p` is never removed from the filesystem. -/
theorem delete_only_after_backup (env : ConvEnv) (fs0 : List (List String))
    (items : List ConvItem) :
    safeDeletes (convert_videos env fs0 items).2 = true ∧
    (∀ p, Ev.fsRemove p ∈ (convert_videos env fs0 items).2 →
       env.deleteOriginals = true ∧ env.copyOk p = true ∧ env.ffmpegOk p = true ∧
         ∃ v ∈ items, v.path = p) ∧
    (∀ p, env.copyOk p = false → p ∈ fs0 → p ∈ (convert_videos env fs0 items).1.fs) := by
  refine ⟨?_, ?_, ?_⟩
  · show safeDeletesFrom none
      ((convLoop env items.length 0 ⟨fs0, 0, 0, 0⟩ items).2 ++ [_, _]) = true
    rw [safeDeletesFrom_append]
    rw [convLoop_safe env items items.length 0 ⟨fs0, 0, 0, 0⟩ none]
    cases lastOr none (convLoop env items.length 0 ⟨fs0, 0, 0, 0⟩ items).2 <;>
      simp [safeDeletesFrom, removeGuard]
  · intro p h
    have h' : Ev.fsRemove p ∈ (convLoop env items.length 0 ⟨fs0, 0, 0, 0⟩ items).2 := by
      rcases List.mem_append.mp h with h1 | h2
      · exact h1
      · simp at h2
    obtain ⟨hcp, hdel, hok, hv⟩ :=
      convLoop_remove env items items.length 0 ⟨fs0, 0, 0, 0⟩ p h'
    exact ⟨hdel, hcp, hok, hv⟩
  · intro p hc hp
    exact convLoop_fs_mem env items items.length 0 ⟨fs0, 0, 0, 0⟩ p hc hp

/-- An environment with "delete originals" on and all external actions
succeeding. -/
def envW2 : ConvEnv :=
  ⟨["s"], ["o"], true, "medium", "Original", probeW,
   fun _ => true, fun _ => true, fun _ => true⟩

theorem delete_only_after_backup_w :
    envW2.deleteOriginals = true ∧ envW2.copyOk ["s", "a.mov"] = true ∧
    envW2.ffmpegOk ["s", "a.mov"] = true ∧ ∃ v ∈ [vW], v.path = ["s", "a.mov"] :=
  (delete_only_after_backup envW2 [] [vW]).2.1 ["s", "a.mov"] (by decide)

theorem keyEvents_append (a b : List Ev) :
    keyEvents (a ++ b) = keyEvents a ++ keyEvents b :=
  List.filter_append a b

theorem convStep_keyEvents (env : ConvEnv) (n k : Nat) (st : ConvState)
    (v : ConvItem) :
    ∃ t, isTerminal t = true ∧
      keyEvents (convStep env n k st v).2 = [Ev.progress (pyProgressPct k n), t] := by
  unfold convStep
  cases hd : convertDest env.sourcePath env.outputPath v.path with
  | none =>
    exact ⟨Ev.updateTree v.idx "Error" "Error", by simp [isTerminal],
      by simp [keyEvents, convPre, isTerminal, isProgressEv]⟩
  | some dest =>
    simp only
    by_cases hfs : dest ∈ st.fs
    · rw [if_pos hfs]
      exact ⟨Ev.updateTree v.idx "Skipped" "Exists", by simp [isTerminal],
        by simp [keyEvents, convPre, isTerminal, isProgressEv]⟩
    · rw [if_neg hfs]
      rw [convert_single_video_eq env st.fs v dest hd hfs]
      cases hok : env.ffmpegOk v.path
      · exact ⟨Ev.updateTree v.idx "Failed" "Failed", by simp [isTerminal],
          by simp [keyEvents, convPre, isTerminal, isProgressEv]⟩
      · simp only [if_true]
        refine ⟨Ev.updateTree v.idx "Converted" "100%", by simp [isTerminal], ?_⟩
        cases hdel : env.deleteOriginals
        · simp [keyEvents, convPre, isTerminal, isProgressEv]
        · simp only [if_true]
          unfold backup_and_delete
          cases hl : v.path.getLast? with
          | none => simp [keyEvents, convPre, isTerminal, isProgressEv]
          | some nm =>
            simp only
            cases hcp : env.copyOk v.path
            · simp [keyEvents, convPre, isTerminal, isProgressEv]
            · cases hrm : env.removeOk v.path <;>
                simp [keyEvents, convPre, isTerminal, isProgressEv]

theorem convLoop_keyEvents (env : ConvEnv) :
    ∀ (items : List ConvItem) (n k : Nat) (st : ConvState),
      ∃ ts : List Ev, ts.length = items.length ∧ (∀ t ∈ ts, isTerminal t = true) ∧
        keyEvents (convLoop env n k st items).2 = keyShape n k ts
  | [], _, _, _ => ⟨[], rfl, by simp, rfl⟩
  | v :: rest, n, k, st => by
    obtain ⟨t, ht, hk⟩ := convStep_keyEvents env n k st v
    obtain ⟨ts, h1, h2, h3⟩ :=
      convLoop_keyEvents env rest n (k + 1) (convStep env n k st v).1
    refine ⟨t :: ts, by simp [h1], ?_, ?_⟩
    · intro x hx
      rcases List.mem_cons.mp hx with hx1 | hx2
      · rw [hx1]; exact ht
      · exact h2 x hx2
    · show keyEvents ((convStep env n k st v).2
        ++ (convLoop env n (k + 1) (convStep env n k st v).1 rest).2) = _
      rw [keyEvents_append, hk, h3]
      rfl

/-- C9 (amended: the emitted progress is the double-precision value
`int((processed / total) * 100)`, which can fall one below the exact
percentage `⌊100·processed/total⌋`): over an uncancelled conversion run,
the progress and terminal row-update emissions form exactly the
interleaving `progress pct(0,n), terminal₀, progress pct(1,n), terminal₁,
…, progress pct(n-1,n), terminalₙ₋₁, progress 100` with
`pct = pyProgressPct`: each processed file gets exactly one terminal
status, it is followed by the aggregate progress value for
`processed/total` — the value for the `k`-th file being emitted at the
head of the next iteration — and the run ends at exactly 100 %. -/
theorem per_file_status_and_progress (env : ConvEnv) (fs0 : List (List String))
    (items : List ConvItem) :
    ∃ ts : List Ev, ts.length = items.length ∧ (∀ t ∈ ts, isTerminal t = true) ∧
      keyEvents (convert_videos env fs0 items).2 =
        keyShape items.length 0 ts ++ [Ev.progress 100] := by
  obtain ⟨ts, h1, h2, h3⟩ :=
    convLoop_keyEvents env items items.length 0 ⟨fs0, 0, 0, 0⟩
  refine ⟨ts, h1, h2, ?_⟩
  show keyEvents ((convLoop env items.length 0 ⟨fs0, 0, 0, 0⟩ items).2 ++ [_, _]) = _
  rw [keyEvents_append, h3]
  simp [keyEvents, isTerminal, isProgressEv]

theorem per_file_status_and_progress_w :
    ∃ ts : List Ev, ts.length = [vW].length ∧ (∀ t ∈ ts, isTerminal t = true) ∧
      keyEvents (convert_videos envW2 [] [vW]).2 =
        keyShape [vW].length 0 ts ++ [Ev.progress 100] :=
  per_file_status_and_progress envW2 [] [vW]

/-- C9 counterexample to "progress equal to `processed/total` as a
percentage": in a 100-file run, the iteration following the 29th processed
file emits the aggregate progress value `28` and not `29`, because
`(29 / 100) * 100` evaluates to `28.999999999999996` in double precision
while 29/100 as a percentage is exactly `29 = 100·29/100`. -/
theorem progress_exact_percentage_cex :
    Ev.progress 28 ∈ (convStep envW2 100 29 ⟨[], 0, 0, 0⟩ vW).2 ∧
    Ev.progress 29 ∉ (convStep envW2 100 29 ⟨[], 0, 0, 0⟩ vW).2 ∧
    100 * 29 / 100 = 29 := by
  refine ⟨by decide, by decide, by decide⟩

end DCIM
